import Mathlib

/-!
Verification of the WorkLogDash time-accounting core: time-slot generation
(`shared/schema.ts`), current-slot resolution (`client/src/lib/timeUtils.ts`),
daily and enhanced monthly summary aggregation and the bulk holiday upsert
(`server/emailService.ts` routes together with the storage layer in
`server/storage.ts`).

JavaScript strings are modelled by `String` with all operations implemented
structurally over the underlying character list (so that they evaluate), and
JavaScript's exact binary floating point arithmetic on the small dyadic /
low-denominator rationals occurring here is modelled by `ℚ`, with the
non-finite results of dividing by zero (NaN / Infinity) modelled by `none` in
`Option`-valued fields.
-/

namespace WorkLogDash

/-! ## Clock times as zero-padded HH:MM strings -/

/-- The JavaScript idiom `x.toString().padStart(2, '0')` for `x < 100`. -/
def pad2 (n : Nat) : String := if n < 10 then "0" ++ toString n else toString n

/-- Format a minutes-since-midnight value as a zero-padded `HH:MM` string,
as done by the template `` `${hours.toString().padStart(2,'0')}:${minutes.toString().padStart(2,'0')}` ``. -/
def formatTime (m : Nat) : String := pad2 (m / 60) ++ ":" ++ pad2 (m % 60)

/-- Minutes since local midnight of a `Date` at integer minute offset `cur`
from `2000-01-01T00:00` (JavaScript `getHours`/`getMinutes` roll over across
days, which `Int.emod 1440` captures). -/
def formatTimeI (cur : Int) : String := formatTime (cur.emod 1440).toNat

/-- Parse a five-character `HH:MM` string back to minutes since midnight
(the effect of `new Date("2000-01-01T" + s + ":00")` on a well-formed `s`). -/
def toMin (s : String) : Nat :=
  match s.data with
  | [c1, c2, _, c3, c4] =>
    ((c1.toNat - 48) * 10 + (c2.toNat - 48)) * 60 + ((c3.toNat - 48) * 10 + (c4.toNat - 48))
  | _ => 0

/-- A zero-padded 24-hour `HH:MM` clock-time string. -/
def IsTimeString (s : String) : Prop := ∃ m, m < 1440 ∧ s = formatTime m

theorem pad2_data : ∀ x < 100, (pad2 x).data = [Nat.digitChar (x / 10), Nat.digitChar (x % 10)] := by
  decide

theorem digitChar_toNat : ∀ d < 10, (Nat.digitChar d).toNat = 48 + d := by decide

theorem digitChar_lt : ∀ a < 10, ∀ b < 10, (Nat.digitChar a < Nat.digitChar b ↔ a < b) := by decide

theorem digitChar_inj : ∀ a < 10, ∀ b < 10, (Nat.digitChar a = Nat.digitChar b ↔ a = b) := by
  decide

theorem formatTime_data (m : Nat) (hm : m < 1440) :
    (formatTime m).data = [Nat.digitChar (m / 60 / 10), Nat.digitChar (m / 60 % 10), ':',
      Nat.digitChar (m % 60 / 10), Nat.digitChar (m % 60 % 10)] := by
  have h1 : m / 60 < 100 := by omega
  have h2 : m % 60 < 100 := by omega
  show ((pad2 (m / 60) ++ ":") ++ pad2 (m % 60)).data = _
  rw [String.data_append, String.data_append, pad2_data _ h1, pad2_data _ h2]
  rfl

theorem toMin_formatTime (m : Nat) (hm : m < 1440) : toMin (formatTime m) = m := by
  rw [toMin, formatTime_data m hm]
  have h1 : m / 60 / 10 < 10 := by omega
  have h2 : m / 60 % 10 < 10 := by omega
  have h3 : m % 60 / 10 < 10 := by omega
  have h4 : m % 60 % 10 < 10 := by omega
  simp only [digitChar_toNat _ h1, digitChar_toNat _ h2, digitChar_toNat _ h3,
    digitChar_toNat _ h4]
  omega

theorem lex_cons_iff {a b : Char} {l₁ l₂ : List Char} :
    List.Lex (· < ·) (a :: l₁) (b :: l₂) ↔ a < b ∨ (a = b ∧ List.Lex (· < ·) l₁ l₂) := by
  constructor
  · intro h
    cases h with
    | cons h => exact Or.inr ⟨rfl, h⟩
    | rel h => exact Or.inl h
  · rintro (h | ⟨rfl, h⟩)
    · exact List.Lex.rel h
    · exact List.Lex.cons h

/-- On zero-padded `HH:MM` strings, lexicographic string comparison agrees with
comparison of the underlying clock times. -/
theorem formatTime_lt_iff (a b : Nat) (ha : a < 1440) (hb : b < 1440) :
    formatTime a < formatTime b ↔ a < b := by
  rw [String.lt_iff_toList_lt]
  show List.Lex _ (formatTime a).data (formatTime b).data ↔ _
  rw [formatTime_data a ha, formatTime_data b hb]
  have h1 : a / 60 / 10 < 10 := by omega
  have h2 : a / 60 % 10 < 10 := by omega
  have h3 : a % 60 / 10 < 10 := by omega
  have h4 : a % 60 % 10 < 10 := by omega
  have h5 : b / 60 / 10 < 10 := by omega
  have h6 : b / 60 % 10 < 10 := by omega
  have h7 : b % 60 / 10 < 10 := by omega
  have h8 : b % 60 % 10 < 10 := by omega
  simp only [lex_cons_iff, List.Lex.not_nil_right, lt_self_iff_false, or_false, and_false,
    false_or, true_and, and_true,
    digitChar_lt _ h1 _ h5, digitChar_inj _ h1 _ h5,
    digitChar_lt _ h2 _ h6, digitChar_inj _ h2 _ h6,
    digitChar_lt _ h3 _ h7, digitChar_inj _ h3 _ h7,
    digitChar_lt _ h4 _ h8, digitChar_inj _ h4 _ h8]
  omega

theorem formatTime_le_iff (a b : Nat) (ha : a < 1440) (hb : b < 1440) :
    formatTime a ≤ formatTime b ↔ a ≤ b := by
  rw [← not_lt, ← not_lt (α := Nat), formatTime_lt_iff b a hb ha]

/-! ## The slot generator of `shared/schema.ts` (`generateTimeSlots`)

The source loops `while (current < end)`, pushing the formatted current time
and advancing `current` by `slotDurationMinutes` each iteration.  The loop is
modelled with explicit fuel (one unit per loop-condition check); `none` means
the loop is still running after `fuel` checks, so a run that returns `none`
for every fuel diverges. -/

def genSlotsFuel : Nat → Int → Int → Int → Option (List String)
  | 0, _, _, _ => none
  | fuel + 1, cur, endM, d =>
    if cur < endM then
      (genSlotsFuel fuel (cur + d) endM d).map (fun rest => formatTimeI cur :: rest)
    else
      some []

/-- The function `generateTimeSlots(startTime, endTime, slotDurationMinutes)` from
`shared/schema.ts`, with the two `HH:MM` arguments parsed to minutes the way
the `Date` constructor parses them. -/
def generateTimeSlots (startTime endTime : String) (slotDurationMinutes : Int)
    (fuel : Nat) : Option (List String) :=
  genSlotsFuel fuel (toMin startTime) (toMin endTime) slotDurationMinutes

/-- The list of minute values the loop pushes, as a total function (used to
reason about terminating runs, i.e. positive durations). -/
def slotsFrom (cur endM d : Nat) : List Nat :=
  if _h : 0 < d ∧ cur < endM then cur :: slotsFrom (cur + d) endM d else []
termination_by endM - cur
decreasing_by omega

theorem genSlotsFuel_eq_slotsFrom (d : Nat) (hd : 0 < d) :
    ∀ fuel cur endM : Nat, endM ≤ 1440 → endM - cur + 1 ≤ fuel →
      genSlotsFuel fuel cur endM d = some ((slotsFrom cur endM d).map formatTime) := by
  intro fuel
  induction fuel with
  | zero =>
    intro cur endM hle hf
    omega
  | succ n ih =>
    intro cur endM hle hf
    by_cases hc : cur < endM
    · rw [genSlotsFuel, if_pos (by exact_mod_cast hc)]
      have hcast : (cur : Int) + d = ((cur + d : Nat) : Int) := by push_cast; ring
      rw [hcast, ih (cur + d) endM hle (by omega)]
      have hfmt : formatTimeI (cur : Int) = formatTime cur := by
        unfold formatTimeI
        have hmod : ((cur : Int)).emod 1440 = (cur : Int) :=
          Int.emod_eq_of_lt (Int.natCast_nonneg cur)
            (by exact_mod_cast lt_of_lt_of_le hc hle)
        rw [hmod, Int.toNat_natCast]
      conv_rhs => rw [slotsFrom, dif_pos ⟨hd, hc⟩]
      simp [hfmt]
    · rw [genSlotsFuel, if_neg (by exact_mod_cast hc), slotsFrom, dif_neg (by omega)]
      rfl

theorem slotsFrom_mem (cur endM d : Nat) : ∀ x ∈ slotsFrom cur endM d, cur ≤ x ∧ x < endM := by
  induction cur, endM, d using slotsFrom.induct with
  | case1 cur endM d h ih =>
    intro x hx
    rw [slotsFrom, dif_pos h] at hx
    rcases List.mem_cons.mp hx with rfl | hx
    · exact ⟨le_refl _, h.2⟩
    · have := ih x hx
      omega
  | case2 cur endM d h =>
    intro x hx
    rw [slotsFrom, dif_neg h] at hx
    simp at hx

theorem slotsFrom_head (cur endM d : Nat) (hd : 0 < d) (hc : cur < endM) :
    (slotsFrom cur endM d).head? = some cur := by
  rw [slotsFrom, dif_pos ⟨hd, hc⟩]
  rfl

theorem slotsFrom_chain (cur endM d : Nat) :
    List.Chain' (fun a b => b = a + d) (slotsFrom cur endM d) := by
  induction cur, endM, d using slotsFrom.induct with
  | case1 cur endM d h ih =>
    rw [slotsFrom, dif_pos h]
    refine List.chain'_cons'.mpr ⟨?_, ih⟩
    intro y hy
    by_cases h2 : 0 < d ∧ cur + d < endM
    · rw [slotsFrom_head _ _ _ h2.1 h2.2] at hy
      exact (Option.mem_some_iff.mp hy).symm
    · rw [slotsFrom, dif_neg h2] at hy
      simp at hy
  | case2 cur endM d h =>
    rw [slotsFrom, dif_neg h]
    simp

theorem chain'_imp_mem {α : Type} {R S : α → α → Prop} :
    ∀ {l : List α}, (∀ a ∈ l, ∀ b ∈ l, R a b → S a b) → List.Chain' R l → List.Chain' S l := by
  intro l
  induction l with
  | nil => intro _ _; simp
  | cons a t ih =>
    intro himp hc
    rcases List.chain'_cons'.mp hc with ⟨hhead, htail⟩
    refine List.chain'_cons'.mpr ⟨?_, ?_⟩
    · intro y hy
      have hym : y ∈ a :: t := List.mem_cons_of_mem a (List.mem_of_mem_head? hy)
      exact himp a (List.mem_cons_self a t) y hym (hhead y hy)
    · exact ih (fun x hx y hy hr =>
        himp x (List.mem_cons_of_mem a hx) y (List.mem_cons_of_mem a hy) hr) htail

theorem slotsFrom_lt_1440 {cur endM d : Nat} (hle : endM ≤ 1440) :
    ∀ x ∈ slotsFrom cur endM d, x < 1440 :=
  fun x hx => lt_of_lt_of_le (slotsFrom_mem cur endM d x hx).2 hle

/-- C1: for every pair of zero-padded 24-hour HH:MM strings with
`startTime < endTime` (lexicographically) and every integer duration `> 0`,
`generateTimeSlots` terminates (with ample fuel) on a strictly increasing
sequence of zero-padded HH:MM strings whose first element is `startTime`, in
which every element is `< endTime` and consecutive elements differ by exactly
the duration in minutes; in particular
`generateTimeSlots("09:00", "17:00", 60)` is
`["09:00","10:00","11:00","12:00","13:00","14:00","15:00","16:00"]`. -/
theorem generateTimeSlots_spec :
    (∀ s e : String, IsTimeString s → IsTimeString e → s < e →
      ∀ d : Int, 0 < d → ∀ fuel : Nat, 1441 ≤ fuel →
      ∃ l : List String,
        generateTimeSlots s e d fuel = some l ∧
        l.head? = some s ∧
        List.Chain' (· < ·) l ∧
        (∀ x ∈ l, x < e ∧ IsTimeString x) ∧
        List.Chain' (fun x y => (toMin y : Int) = (toMin x : Int) + d) l) ∧
    generateTimeSlots "09:00" "17:00" 60 1441 =
      some ["09:00", "10:00", "11:00", "12:00", "13:00", "14:00", "15:00", "16:00"] := by
  constructor
  · rintro s e ⟨a, ha, rfl⟩ ⟨b, hb, rfl⟩ hlt d hd fuel hfuel
    have hab : a < b := (formatTime_lt_iff a b ha hb).mp hlt
    set dn := d.toNat with hdn_def
    have hdn : 0 < dn := by omega
    have hd_eq : (dn : Int) = d := by omega
    have hmain := genSlotsFuel_eq_slotsFrom dn hdn fuel a b (by omega) (by omega)
    refine ⟨(slotsFrom a b dn).map formatTime, ?_, ?_, ?_, ?_, ?_⟩
    · unfold generateTimeSlots
      rw [toMin_formatTime a ha, toMin_formatTime b hb, ← hd_eq]
      exact hmain
    · rw [List.head?_map, slotsFrom_head a b dn hdn hab]
      rfl
    · rw [List.chain'_map]
      refine chain'_imp_mem ?_ (slotsFrom_chain a b dn)
      intro x hx y hy hr
      have hx4 : x < 1440 := slotsFrom_lt_1440 (by omega) x hx
      have hy4 : y < 1440 := slotsFrom_lt_1440 (by omega) y hy
      exact (formatTime_lt_iff x y hx4 hy4).mpr (by omega)
    · intro x hx
      rcases List.mem_map.mp hx with ⟨m, hm, rfl⟩
      have hmb : m < b := (slotsFrom_mem a b dn m hm).2
      have hm4 : m < 1440 := by omega
      exact ⟨(formatTime_lt_iff m b hm4 hb).mpr hmb, ⟨m, hm4, rfl⟩⟩
    · rw [List.chain'_map]
      refine chain'_imp_mem ?_ (slotsFrom_chain a b dn)
      intro x hx y hy hr
      have hx4 : x < 1440 := slotsFrom_lt_1440 (by omega) x hx
      have hy4 : y < 1440 := slotsFrom_lt_1440 (by omega) y hy
      rw [toMin_formatTime x hx4, toMin_formatTime y hy4]
      omega
  · decide

/-- C1 witness: the universal part of `generateTimeSlots_spec` applied at
the concrete schedule 10:30 to 11:30 with 30-minute slots. -/
theorem generateTimeSlots_spec_witness :
    ∃ l : List String,
      generateTimeSlots "10:30" "11:30" 30 1441 = some l ∧
      l.head? = some "10:30" ∧
      List.Chain' (· < ·) l ∧
      (∀ x ∈ l, x < "11:30" ∧ IsTimeString x) ∧
      List.Chain' (fun x y => (toMin y : Int) = (toMin x : Int) + 30) l :=
  generateTimeSlots_spec.1 "10:30" "11:30" ⟨630, by decide, by decide⟩
    ⟨690, by decide, by decide⟩ (String.lt_iff_toList_lt.mpr (by decide))
    30 (by decide) 1441 (by decide)

/-- The loop of `generateTimeSlots` never finishes, whatever fuel it is
given: it diverges. -/
def LoopsForever (startTime endTime : String) (slotDurationMinutes : Int) : Prop :=
  ∀ fuel : Nat, generateTimeSlots startTime endTime slotDurationMinutes fuel = none

theorem genSlotsFuel_none_of_nonpos (d : Int) (hd : d ≤ 0) :
    ∀ (fuel : Nat) (cur endM : Int), cur < endM → genSlotsFuel fuel cur endM d = none := by
  intro fuel
  induction fuel with
  | zero => intro cur endM _; rfl
  | succ n ih =>
    intro cur endM hc
    rw [genSlotsFuel, if_pos hc, ih (cur + d) endM (by omega)]
    rfl

/-- C2 counterexample: at `startTime = "09:00" < endTime = "17:00"` and
duration `0 ≤ 0`, the loop of `generateTimeSlots` diverges instead of
terminating with the empty sequence as claimed. -/
theorem generateTimeSlots_degenerate_cex :
    (0 : Int) ≤ 0 ∧ LoopsForever "09:00" "17:00" 0 :=
  ⟨le_refl 0, fun fuel =>
    genSlotsFuel_none_of_nonpos 0 (le_refl 0) fuel (toMin "09:00") (toMin "17:00") (by decide)⟩

/-- C2 amended: when `startTime >= endTime` the loop condition fails on the
first check, so `generateTimeSlots` terminates and returns the empty sequence
for every integer duration; but on the rest of the degenerate domain —
`startTime < endTime` with duration `≤ 0` — the loop never terminates, so
termination with an empty result holds only for the first disjunct. -/
theorem generateTimeSlots_degenerate :
    (∀ s e : String, ∀ d : Int, ∀ fuel : Nat, IsTimeString s → IsTimeString e →
      e ≤ s → 1 ≤ fuel → generateTimeSlots s e d fuel = some []) ∧
    (∀ s e : String, ∀ d : Int, IsTimeString s → IsTimeString e →
      s < e → d ≤ 0 → LoopsForever s e d) := by
  constructor
  · rintro s e d fuel ⟨a, ha, rfl⟩ ⟨b, hb, rfl⟩ hle hfuel
    have hba : b ≤ a := (formatTime_le_iff b a hb ha).mp hle
    cases fuel with
    | zero => omega
    | succ n =>
      unfold generateTimeSlots
      rw [toMin_formatTime a ha, toMin_formatTime b hb, genSlotsFuel,
        if_neg (by exact_mod_cast not_lt.mpr hba)]
  · rintro s e d ⟨a, ha, rfl⟩ ⟨b, hb, rfl⟩ hlt hd fuel
    have hab : a < b := (formatTime_lt_iff a b ha hb).mp hlt
    unfold generateTimeSlots
    rw [toMin_formatTime a ha, toMin_formatTime b hb]
    exact genSlotsFuel_none_of_nonpos d hd fuel a b (by exact_mod_cast hab)

/-- C2 witness: the amended theorem applied at `startTime = "17:00" >=
endTime = "09:00"`. -/
theorem generateTimeSlots_degenerate_witness :
    generateTimeSlots "17:00" "09:00" 60 1 = some [] :=
  generateTimeSlots_degenerate.1 "17:00" "09:00" 60 1 ⟨1020, by decide, by decide⟩
    ⟨540, by decide, by decide⟩
    (le_of_lt (String.lt_iff_toList_lt.mpr (by decide))) (by decide)

/-! ## Clock resolution in `client/src/lib/timeUtils.ts` (`getCurrentTimeSlot`)

The current wall-clock `HH:MM` string (computed in the source from
`new Date()` and the timezone) is passed as an explicit argument.  JavaScript
string `<=` is lexicographic comparison, implemented here on the character
lists so that it evaluates. -/

/-- JavaScript string comparison `s <= t` (lexicographic). -/
def jsStringLeb (s t : String) : Bool :=
  decide (List.Lex (· < ·) s.data t.data) || s.data == t.data

theorem jsStringLeb_iff (s t : String) : jsStringLeb s t = true ↔ s ≤ t := by
  rw [String.le_iff_toList_le, le_iff_lt_or_eq, jsStringLeb, Bool.or_eq_true,
    decide_eq_true_iff, beq_iff_eq]
  constructor
  · rintro (h | h)
    · exact Or.inl h
    · exact Or.inr (by simpa [String.toList] using h)
  · rintro (h | h)
    · exact Or.inl h
    · exact Or.inr (by simpa [String.toList] using h)

/-- The loop `for (const slot of userTimeSlots) if (currentTime <= slot) return slot`
loop of `getCurrentTimeSlot`. -/
def findSlot (currentTime : String) : List String → Option String
  | [] => none
  | slot :: rest => if jsStringLeb currentTime slot then some slot else findSlot currentTime rest

/-- The function `getCurrentTimeSlot(userTimeSlots?, timezone)` from
`client/src/lib/timeUtils.ts`: `none` for an absent or empty slot list,
otherwise the first slot the current time has not passed. -/
def getCurrentTimeSlot (userTimeSlots : Option (List String)) (currentTime : String) :
    Option String :=
  match userTimeSlots with
  | none => none
  | some slots => if slots.length = 0 then none else findSlot currentTime slots

theorem findSlot_eq_find? (t : String) :
    ∀ l : List String, findSlot t l = l.find? (fun s => decide (t ≤ s)) := by
  intro l
  induction l with
  | nil => rfl
  | cons s rest ih =>
    by_cases h : t ≤ s
    · rw [findSlot, if_pos ((jsStringLeb_iff t s).mpr h),
        List.find?_cons_of_pos (p := fun x => decide (t ≤ x)) rest (decide_eq_true h)]
    · have hbneq : ¬ jsStringLeb t s = true := by
        rw [jsStringLeb_iff]
        exact h
      rw [findSlot, if_neg hbneq,
        List.find?_cons_of_neg (p := fun x => decide (t ≤ x)) rest (by simpa using h)]
      exact ih

/-- C7: `getCurrentTimeSlot` returns the first slot in the list whose label
is `>=` the current time under lexicographic string comparison, and returns
`none` when the list is absent, empty, or the current time is past every
slot's label. -/
theorem getCurrentTimeSlot_spec :
    (∀ t : String, getCurrentTimeSlot none t = none) ∧
    (∀ (l : List String) (t : String),
      getCurrentTimeSlot (some l) t = l.find? (fun s => decide (t ≤ s))) ∧
    (∀ (l : List String) (t : String),
      getCurrentTimeSlot (some l) t = none ↔ ∀ s ∈ l, s < t) := by
  have hsome : ∀ (l : List String) (t : String),
      getCurrentTimeSlot (some l) t = l.find? (fun s => decide (t ≤ s)) := by
    intro l t
    cases l with
    | nil => rfl
    | cons s rest =>
      show findSlot t (s :: rest) = _
      exact findSlot_eq_find? t (s :: rest)
  refine ⟨fun _ => rfl, hsome, ?_⟩
  intro l t
  rw [hsome l t, List.find?_eq_none]
  constructor
  · intro h s hs
    have hns := h s hs
    rw [decide_eq_true_eq] at hns
    exact not_le.mp hns
  · intro h s hs
    rw [decide_eq_true_eq]
    exact not_le.mpr (h s hs)

/-- C7 witness: `getCurrentTimeSlot` at a two-slot list with a current time
between the slots, and at a list whose slots have all passed. -/
theorem getCurrentTimeSlot_spec_witness :
    getCurrentTimeSlot (some ["09:00", "10:00"]) "09:30" =
      (["09:00", "10:00"].find? fun s => decide ("09:30" ≤ s)) ∧
    getCurrentTimeSlot (some ["09:00"]) "10:00" = none :=
  ⟨getCurrentTimeSlot_spec.2.1 ["09:00", "10:00"] "09:30",
    (getCurrentTimeSlot_spec.2.2 ["09:00"] "10:00").mpr (by
      intro s hs
      rw [List.mem_singleton.mp hs]
      exact String.lt_iff_toList_lt.mpr (by decide))⟩

/-! ## Work-log rows (`shared/schema.ts` `workLogs` table)

Timestamps are abstracted to `Nat` instants; the row id is an opaque string
(randomly generated in the source). -/

structure WorkLog where
  id : String
  userId : String
  date : String
  timeSlot : String
  workDescription : String
  isHoliday : Bool
  createdAt : Nat
  updatedAt : Nat
deriving DecidableEq

/-! ## JavaScript primitives used by the aggregation routes -/

/-- JavaScript `String.prototype.trim` (ASCII whitespace). -/
def jsTrim (s : String) : String :=
  ⟨((s.data.dropWhile Char.isWhitespace).reverse.dropWhile Char.isWhitespace).reverse⟩

/-- JavaScript `String.prototype.toLowerCase` (ASCII letters). -/
def jsToLower (s : String) : String := ⟨s.data.map Char.toLower⟩

/-- JavaScript `String.prototype.includes` (substring containment). -/
def jsIncludes (s pat : String) : Bool := decide (pat.data <:+: s.data)

/-- JavaScript `String.prototype.endsWith`. -/
def jsEndsWith (s pat : String) : Bool := decide (pat.data <:+ s.data)

/-- JavaScript `String.prototype.length` (code units; ASCII here). -/
def jsLength (s : String) : Nat := s.data.length

/-- JavaScript division, with `none` standing for the non-finite result
(NaN or Infinity) produced by a zero denominator. -/
def jsDiv (a b : ℚ) : Option ℚ := if b = 0 then none else some (a / b)

/-- JavaScript `Math.round` (round half towards positive infinity), written
with an explicit Euclidean division so it evaluates. -/
def jsRound (q : ℚ) : ℤ := (q + 1 / 2).num / ((q + 1 / 2).den : ℤ)

theorem jsRound_eq_floor (q : ℚ) : jsRound q = ⌊q + 1 / 2⌋ := Rat.floor_def.symm

/-- JavaScript `Math.ceil`. -/
def jsCeil (q : ℚ) : ℤ := -((-q).num / (((-q).den : ℤ)))

/-- A JavaScript `Map<string, number>` of per-area tallies in insertion
order: `map.set(area, (map.get(area) || 0) + 1)`. -/
def bumpArea : List (String × Nat) → String → List (String × Nat)
  | [], area => [(area, 1)]
  | (k, v) :: rest, area =>
    if k = area then (k, v + 1) :: rest else (k, v) :: bumpArea rest area

/-- A JavaScript `Set<string>` in insertion order: `set.add(s)`. -/
def addToSet (seen : List String) (s : String) : List String :=
  if s ∈ seen then seen else seen ++ [s]

/-- A stable sort (JavaScript `Array.prototype.sort` is stable): insertion
sort keeping `y` before the inserted `x` whenever `le y x`. -/
def insertSorted (le : α → α → Bool) (x : α) : List α → List α
  | [] => [x]
  | y :: ys => if le y x then y :: insertSorted le x ys else x :: y :: ys

def stableSort (le : α → α → Bool) : List α → List α
  | [] => []
  | x :: xs => insertSorted le x (stableSort le xs)

/-! ## Work-area categorization (`server/emailService.ts`, daily-summary and
enhanced-summary routes)

The source lower-cases the description and walks a fixed `if`/`else if`
chain of keyword tests. -/

def categorizeWorkArea (workDescription : String) : String :=
  let d := jsToLower workDescription
  if jsIncludes d "frontend" || jsIncludes d "react" || jsIncludes d "ui" then
    "Frontend Development"
  else if jsIncludes d "backend" || jsIncludes d "api" || jsIncludes d "server" then
    "Backend Development"
  else if jsIncludes d "review" || jsIncludes d "code review" then
    "Code Review"
  else if jsIncludes d "meeting" || jsIncludes d "standup" then
    "Meetings"
  else if jsIncludes d "documentation" || jsIncludes d "docs" then
    "Documentation"
  else if jsIncludes d "testing" || jsIncludes d "test" then
    "Testing"
  else if jsIncludes d "deployment" || jsIncludes d "deploy" then
    "Deployment"
  else
    "Other"

structure WorkArea where
  area : String
  hours : Nat
  percentage : Option ℤ

/-! ## Daily summary (`GET /api/work-logs/daily-summary/:date`) -/

structure DailySummary where
  date : String
  totalHours : ℚ
  completedSlots : Nat
  totalSlots : Nat
  completionPercentage : Option ℤ
  workAreas : List WorkArea
  keyAccomplishments : List String
  isHoliday : Bool

/-- The daily-summary computation of the route in `server/emailService.ts`:
holiday short-circuit, then completed-slot statistics, work-area tallies and
key accomplishments over the date's work logs. -/
def computeDailySummary (date : String) (userTimeSlots : List String)
    (workLogs : List WorkLog) (slotDurationHours : ℚ) : DailySummary :=
  if workLogs.any (·.isHoliday) then
    { date := date, totalHours := 0, completedSlots := 0,
      totalSlots := userTimeSlots.length, completionPercentage := some 0,
      workAreas := [], keyAccomplishments := ["Holiday"], isHoliday := true }
  else
    let completedSlots := (workLogs.filter (fun l => !(jsTrim l.workDescription == ""))).length
    let totalHours : ℚ := (completedSlots : ℚ) * slotDurationHours
    let completionPercentage :=
      (jsDiv (completedSlots : ℚ) (userTimeSlots.length : ℚ)).map (fun q => jsRound (q * 100))
    let areaCounts := workLogs.foldl
      (fun m l =>
        if !(jsTrim l.workDescription == "") then
          bumpArea m (categorizeWorkArea l.workDescription)
        else m) []
    let accomplishments := workLogs.foldl
      (fun acc l =>
        if !(jsTrim l.workDescription == "") then
          if 10 < jsLength l.workDescription then addToSet acc l.workDescription else acc
        else acc) []
    let workAreas := stableSort (fun a b => decide (b.hours ≤ a.hours))
      (areaCounts.map (fun p =>
        WorkArea.mk p.1 p.2
          ((jsDiv (p.2 : ℚ) (completedSlots : ℚ)).map (fun q => jsRound (q * 100)))))
    { date := date, totalHours := totalHours, completedSlots := completedSlots,
      totalSlots := userTimeSlots.length, completionPercentage := completionPercentage,
      workAreas := workAreas, keyAccomplishments := accomplishments.take 5,
      isHoliday := false }

/-! ## Enhanced monthly summary (`GET /api/work-logs/enhanced-summary/:year/:month`) -/

/-- The JavaScript Map grouping of a month's logs by date (`logsByDate`):
first-seen key order, appending within a group. -/
def addToGroup : List (String × List WorkLog) → WorkLog → List (String × List WorkLog)
  | [], l => [(l.date, [l])]
  | (k, ls) :: rest, l =>
    if k = l.date then (k, ls ++ [l]) :: rest else (k, ls) :: addToGroup rest l

def groupByDate (workLogs : List WorkLog) : List (String × List WorkLog) :=
  workLogs.foldl addToGroup []

structure DayRollup where
  date : String
  hours : ℚ
  completionPercentage : Option ℤ

structure DailySummaryOut where
  date : String
  totalHours : ℚ
  completedSlots : ℤ
  totalSlots : Nat
  completionPercentage : Option ℤ
  workAreas : List WorkArea
  keyAccomplishments : List String
  isHoliday : Bool

structure EnhancedMonthlySummary where
  year : ℤ
  month : ℤ
  totalDays : Nat
  workingDays : ℤ
  holidayDays : Nat
  totalProductiveHours : ℚ
  averageHoursPerDay : ℚ
  topWorkAreas : List WorkArea
  dailySummaries : List DailySummaryOut
  keyAccomplishments : List String
  mostProductiveDays : List DayRollup

/-- One per-date rollup of the enhanced monthly summary (the body of the
`logsByDate` map in the route). -/
def dayRollup (userTimeSlots : List String) (slotDurationHours : ℚ)
    (g : String × List WorkLog) : DayRollup :=
  let isHoliday := g.2.any (·.isHoliday)
  let completedSlots :=
    (g.2.filter (fun l => !l.isHoliday && !(jsTrim l.workDescription == ""))).length
  let totalHours : ℚ := if isHoliday then 0 else (completedSlots : ℚ) * slotDurationHours
  DayRollup.mk g.1 totalHours
    (if isHoliday then some 0
     else (jsDiv (completedSlots : ℚ) (userTimeSlots.length : ℚ)).map
       (fun q => jsRound (q * 100)))

/-- The shape in which a rollup is emitted in the route's response, with
`isHoliday` reconstructed as `completionPercentage === 0 && hours === 0`. -/
def rollupOut (userTimeSlots : List String) (day : DayRollup) : DailySummaryOut :=
  DailySummaryOut.mk day.date day.hours (jsCeil day.hours) userTimeSlots.length
    day.completionPercentage [] []
    (decide (day.completionPercentage = some 0) && decide (day.hours = 0))

/-- The enhanced monthly summary computation of the route in
`server/emailService.ts`: per-date rollups, monthly statistics, work-area
tallies, accomplishments, and most-productive-day ranking. -/
def computeEnhancedMonthlySummary (year month : ℤ) (userTimeSlots : List String)
    (workLogs : List WorkLog) (slotDurationMinutes : Nat) : EnhancedMonthlySummary :=
  let slotDurationHours : ℚ := (slotDurationMinutes : ℚ) / 60
  let logsByDate := groupByDate workLogs
  let dailySummaries := stableSort (fun a b => jsStringLeb a.date b.date)
    (logsByDate.map (dayRollup userTimeSlots slotDurationHours))
  let totalDays := logsByDate.length
  let holidayDays := (logsByDate.filter (fun g => g.2.any (·.isHoliday))).length
  let workingDays : ℤ := (totalDays : ℤ) - (holidayDays : ℤ)
  let productiveHours : ℚ :=
    ((workLogs.filter (fun l => !l.isHoliday && !(jsTrim l.workDescription == ""))).length : ℚ) *
      slotDurationHours
  let areaCounts := workLogs.foldl
    (fun m l =>
      if !l.isHoliday && !(jsTrim l.workDescription == "") then
        bumpArea m (categorizeWorkArea l.workDescription)
      else m) []
  let allAccomplishments := workLogs.foldl
    (fun acc l =>
      if !l.isHoliday && !(jsTrim l.workDescription == "") then
        if 15 < jsLength l.workDescription then addToSet acc l.workDescription else acc
      else acc) []
  let topWorkAreas := ((stableSort (fun a b => decide (b.2 ≤ a.2)) areaCounts).take 6).map
    (fun p => WorkArea.mk p.1 p.2
      (some (jsRound ((p.2 : ℚ) / (if productiveHours = 0 then 1 else productiveHours) * 100))))
  let mostProductiveDays := ((stableSort (fun a b => decide (b.hours ≤ a.hours))
    (dailySummaries.filter (fun day => !(jsEndsWith day.date "holiday")))).take 5).map
    (fun day => DayRollup.mk day.date day.hours day.completionPercentage)
  { year := year, month := month, totalDays := totalDays, workingDays := workingDays,
    holidayDays := holidayDays, totalProductiveHours := productiveHours,
    averageHoursPerDay :=
      if 0 < workingDays then (jsRound (productiveHours / (workingDays : ℚ) * 10) : ℚ) / 10
      else 0,
    topWorkAreas := topWorkAreas,
    dailySummaries := dailySummaries.map (rollupOut userTimeSlots),
    keyAccomplishments := allAccomplishments.take 10,
    mostProductiveDays := mostProductiveDays }

/-! ## Storage (`server/storage.ts`) and the bulk holiday upsert
(`PUT /api/work-logs/:date/holiday`)

The store is the collection of work-log rows, uniquely keyed by
`(userId, date, timeSlot)`. -/

/-- The update payload of `updateWorkLog` (`UpdateWorkLog` in the schema):
absent fields leave the row unchanged, as with the JavaScript spread. -/
structure UpdateWorkLog where
  workDescription : Option String
  isHoliday : Option Bool

def wlKey (l : WorkLog) : String × String × String := (l.userId, l.date, l.timeSlot)

/-- The lookup `storage.getWorkLog(userId, date, timeSlot)`. -/
def getWorkLog (store : List WorkLog) (userId date timeSlot : String) : Option WorkLog :=
  store.find? (fun l => decide (wlKey l = (userId, date, timeSlot)))

/-- The merge `{...existing, ...updates, updatedAt: new Date()}` of
`updateWorkLog`. -/
def applyUpdate (l : WorkLog) (u : UpdateWorkLog) (now : Nat) : WorkLog :=
  { l with
    workDescription := u.workDescription.getD l.workDescription,
    isHoliday := u.isHoliday.getD l.isHoliday,
    updatedAt := now }

/-- The operation `storage.updateWorkLog(userId, date, timeSlot, updates)`: merge the
updates into the row with the matching key, if any. -/
def updateWorkLog (store : List WorkLog) (userId date timeSlot : String)
    (u : UpdateWorkLog) (now : Nat) : List WorkLog :=
  store.map (fun l => if wlKey l = (userId, date, timeSlot) then applyUpdate l u now else l)

/-- The operation `storage.createWorkLog(...)`: insert a new row. -/
def createWorkLog (store : List WorkLog) (l : WorkLog) : List WorkLog := store ++ [l]

/-- The route body of `PUT /api/work-logs/:date/holiday`: for every slot of the
current slot list, update the existing row's `isHoliday` or create a fresh
row with an empty description.  `newId` supplies the generated row ids. -/
def setDayHoliday (store : List WorkLog) (userId date : String) (isHoliday : Bool)
    (userTimeSlots : List String) (newId : String → String) (now : Nat) : List WorkLog :=
  userTimeSlots.foldl
    (fun st timeSlot =>
      match getWorkLog st userId date timeSlot with
      | some _ => updateWorkLog st userId date timeSlot ⟨none, some isHoliday⟩ now
      | none => createWorkLog st ⟨newId timeSlot, userId, date, timeSlot, "", isHoliday, now, now⟩)
    store

/-- C3: if at least one of the date's entries has `isHoliday = true`, the
daily summary short-circuits to the fixed holiday value object — zero hours,
zero completed slots, the configured slot count, empty work areas and the
single accomplishment `"Holiday"` — regardless of the other entries. -/
theorem dailySummary_holiday (date : String) (userTimeSlots : List String)
    (workLogs : List WorkLog) (slotDurationHours : ℚ)
    (h : ∃ l ∈ workLogs, l.isHoliday = true) :
    computeDailySummary date userTimeSlots workLogs slotDurationHours =
      { date := date, totalHours := 0, completedSlots := 0,
        totalSlots := userTimeSlots.length, completionPercentage := some 0,
        workAreas := [], keyAccomplishments := ["Holiday"], isHoliday := true } := by
  rcases h with ⟨l, hl, hflag⟩
  rw [computeDailySummary, if_pos (List.any_eq_true.mpr ⟨l, hl, hflag⟩)]

/-- C3 witness: a holiday-flagged entry next to an ordinary entry for the
same date. -/
theorem dailySummary_holiday_witness :
    computeDailySummary "2024-01-01" ["09:00", "10:00"]
      [⟨"a", "u1", "2024-01-01", "09:00", "worked on the api", false, 0, 0⟩,
       ⟨"b", "u1", "2024-01-01", "10:00", "", true, 0, 0⟩] 1 =
      { date := "2024-01-01", totalHours := 0, completedSlots := 0,
        totalSlots := 2, completionPercentage := some 0,
        workAreas := [], keyAccomplishments := ["Holiday"], isHoliday := true } :=
  dailySummary_holiday "2024-01-01" ["09:00", "10:00"] _ 1
    ⟨⟨"b", "u1", "2024-01-01", "10:00", "", true, 0, 0⟩, by decide, rfl⟩

/-- C4 counterexample: with an empty configured slot list the daily
summary's completion percentage is the unguarded `0 / 0` — a non-finite
JavaScript number (modelled `none`) — not `0` as claimed. -/
theorem dailySummary_zero_slots_cex :
    (computeDailySummary "2024-01-01" [] [] 1).completionPercentage = none ∧
    (computeDailySummary "2024-01-01" [] [] 1).completionPercentage ≠ some 0 := by
  have heval : (computeDailySummary "2024-01-01" [] [] 1).completionPercentage = none := by
    simp [computeDailySummary, jsDiv]
  exact ⟨heval, by rw [heval]; exact fun hc => Option.noConfusion hc⟩

/-- C4 amended: the monthly `averageHoursPerDay` is guarded — zero working
days yield `0` — and the daily completion percentage is a finite number
whenever the configured slot list is non-empty; but with an empty slot list
(`totalSlots = 0`) the unguarded division makes it non-finite (NaN), not `0`. -/
theorem summary_division_guards :
    (∀ (date : String) (slots : List String) (logs : List WorkLog) (dh : ℚ),
      0 < slots.length →
      ∃ p : ℤ, (computeDailySummary date slots logs dh).completionPercentage = some p) ∧
    (∀ (y m : ℤ) (slots : List String) (logs : List WorkLog) (d : Nat),
      (computeEnhancedMonthlySummary y m slots logs d).workingDays = 0 →
      (computeEnhancedMonthlySummary y m slots logs d).averageHoursPerDay = 0) := by
  constructor
  · intro date slots logs dh hlen
    by_cases hhol : logs.any (·.isHoliday) = true
    · exact ⟨0, by rw [computeDailySummary, if_pos hhol]⟩
    · have hne : ((slots.length : ℚ)) ≠ 0 := by
        exact_mod_cast Nat.pos_iff_ne_zero.mp hlen
      have hhol2 : ¬∃ x ∈ logs, x.isHoliday = true := by
        rw [← List.any_eq_true]
        exact hhol
      have hnil : ¬(slots = []) := by
        intro hs
        rw [hs] at hlen
        exact absurd hlen (by decide)
      simp [computeDailySummary, jsDiv, hhol2, hnil, hne]
  · intro y m slots logs d h
    have hw : (computeEnhancedMonthlySummary y m slots logs d).workingDays =
        ((groupByDate logs).length : ℤ) -
          (((groupByDate logs).filter (fun g => g.2.any (·.isHoliday))).length : ℤ) := rfl
    rw [hw] at h
    show (if (0 : ℤ) < ((groupByDate logs).length : ℤ) -
        (((groupByDate logs).filter (fun g => g.2.any (·.isHoliday))).length : ℤ) then _ else 0) = 0
    rw [if_neg (by omega)]

/-- C4 witness: the amended guarantees at a one-slot schedule with no
entries, and at a month whose only date is a holiday (zero working days). -/
theorem summary_division_guards_witness :
    (∃ p : ℤ, (computeDailySummary "2024-01-01" ["09:00"] [] 1).completionPercentage = some p) ∧
    ((computeEnhancedMonthlySummary 2024 1 ["09:00"]
        [⟨"a", "u1", "2024-01-05", "09:00", "", true, 0, 0⟩] 60).averageHoursPerDay = 0) :=
  ⟨summary_division_guards.1 "2024-01-01" ["09:00"] [] 1 (by decide),
    summary_division_guards.2 2024 1 ["09:00"] _ 60 (by decide)⟩

/-- The fixed, ordered keyword groups of the work-area categorization, as
documented: first match wins. -/
def workAreaKeywordGroups : List (String × List String) :=
  [("Frontend Development", ["frontend", "react", "ui"]),
   ("Backend Development", ["backend", "api", "server"]),
   ("Code Review", ["review"]),
   ("Meetings", ["meeting", "standup"]),
   ("Documentation", ["documentation", "docs"]),
   ("Testing", ["testing", "test"]),
   ("Deployment", ["deployment", "deploy"])]

/-- The specification-side categorizer: lower-case the description and take
the first keyword group with a case-insensitive substring match, falling back
to `"Other"`. -/
def firstMatchingArea (workDescription : String) : String :=
  ((workAreaKeywordGroups.find?
    (fun g => g.2.any (fun kw => jsIncludes (jsToLower workDescription) kw))).map
      (fun g => g.1)).getD "Other"

theorem jsIncludes_trans {s : String} {p q : String} (hpq : p.data <:+: q.data)
    (h : jsIncludes s q = true) : jsIncludes s p = true := by
  rw [jsIncludes, decide_eq_true_iff] at h ⊢
  exact hpq.trans h

/-- In the categorizer's third condition, the `"code review"` test is
subsumed by the `"review"` test. -/
theorem review_or_code_review (d : String) :
    (jsIncludes d "review" || jsIncludes d "code review") = jsIncludes d "review" := by
  cases hr : jsIncludes d "review" with
  | true => rfl
  | false =>
    cases hcr : jsIncludes d "code review" with
    | true =>
      rw [jsIncludes_trans (by decide) hcr] at hr
      exact absurd hr (by decide)
    | false => rfl

/-- C6: the categorizer lower-cases the description and assigns exactly the
first keyword group that matches (case-insensitive substring matching) in the
fixed order Frontend, Backend, Code Review, Meetings, Documentation, Testing,
Deployment, falling back to `"Other"`; in particular
`"Reviewed the new react component"` is Frontend Development. -/
theorem categorizeWorkArea_spec :
    (∀ workDescription : String,
      categorizeWorkArea workDescription = firstMatchingArea workDescription) ∧
    categorizeWorkArea "Reviewed the new react component" = "Frontend Development" := by
  constructor
  · intro wd
    simp only [categorizeWorkArea, firstMatchingArea, workAreaKeywordGroups,
      List.find?, List.any_cons, List.any_nil, Bool.or_false, Bool.or_assoc,
      review_or_code_review]
    cases h1 : jsIncludes (jsToLower wd) "frontend" ||
        (jsIncludes (jsToLower wd) "react" || jsIncludes (jsToLower wd) "ui") with
    | true => simp [h1]
    | false =>
      simp only [h1]
      cases h2 : jsIncludes (jsToLower wd) "backend" ||
          (jsIncludes (jsToLower wd) "api" || jsIncludes (jsToLower wd) "server") with
      | true => simp [h2]
      | false =>
        simp only [h2]
        cases h3 : jsIncludes (jsToLower wd) "review" with
        | true => simp [h3]
        | false =>
          simp only [h3]
          cases h4 : jsIncludes (jsToLower wd) "meeting" ||
              jsIncludes (jsToLower wd) "standup" with
          | true => simp [h4]
          | false =>
            simp only [h4]
            cases h5 : jsIncludes (jsToLower wd) "documentation" ||
                jsIncludes (jsToLower wd) "docs" with
            | true => simp [h5]
            | false =>
              simp only [h5]
              cases h6 : jsIncludes (jsToLower wd) "testing" ||
                  jsIncludes (jsToLower wd) "test" with
              | true => simp [h6]
              | false =>
                simp only [h6]
                cases h7 : jsIncludes (jsToLower wd) "deployment" ||
                    jsIncludes (jsToLower wd) "deploy" with
                | true => simp [h7]
                | false => simp [h7]
  · decide

/-- Insertion-order de-duplication: what iterating a JavaScript `Set` built
by successive `add`s yields. -/
def dedupFirst : List String → List String
  | [] => []
  | x :: xs => x :: dedupFirst (xs.filter (fun y => !(y == x)))
termination_by l => l.length
decreasing_by simp only [List.length_cons]; exact Nat.lt_succ_of_le (List.length_filter_le _ _)

theorem string_beq_eq_decide (y x : String) : (y == x) = decide (y = x) := by
  cases h : decide (y = x) with
  | true => simp [of_decide_eq_true h]
  | false => simp [of_decide_eq_false h]

theorem foldl_addToSet : ∀ (xs : List String) (acc : List String),
    xs.foldl addToSet acc = acc ++ dedupFirst (xs.filter (fun y => decide (y ∉ acc))) := by
  intro xs
  induction xs with
  | nil =>
    intro acc
    simp [dedupFirst]
  | cons x t ih =>
    intro acc
    rw [List.foldl_cons]
    by_cases hx : x ∈ acc
    · rw [addToSet, if_pos hx, ih acc]
      simp [List.filter_cons, hx]
    · rw [addToSet, if_neg hx, ih (acc ++ [x])]
      have hfc : (x :: t).filter (fun y => decide (y ∉ acc)) =
          x :: t.filter (fun y => decide (y ∉ acc)) := by
        simp [List.filter_cons, hx]
      have hsplit : t.filter (fun y => decide (y ∉ acc ++ [x])) =
          (t.filter (fun y => decide (y ∉ acc))).filter (fun y => !(y == x)) := by
        rw [List.filter_filter]
        apply List.filter_congr
        intro y _
        simp [List.mem_append, not_or, string_beq_eq_decide, Bool.and_comm]
      rw [hfc, dedupFirst, hsplit, List.append_assoc]
      rfl

theorem foldl_guarded_addToSet (g : WorkLog → Bool) (f : WorkLog → String) :
    ∀ (logs : List WorkLog) (acc : List String),
      logs.foldl (fun a l => if g l then addToSet a (f l) else a) acc =
        ((logs.filter g).map f).foldl addToSet acc := by
  intro logs
  induction logs with
  | nil => intro acc; rfl
  | cons l t ih =>
    intro acc
    cases hg : g l with
    | true =>
      simp only [List.foldl_cons, List.filter_cons, hg, if_true, List.map_cons]
      rw [ih (addToSet acc (f l))]
    | false =>
      simp only [List.foldl_cons, List.filter_cons, hg, Bool.false_eq_true, if_false]
      exact ih acc

theorem filter_not_mem_nil (xs : List String) :
    xs.filter (fun y => decide (y ∉ ([] : List String))) = xs :=
  List.filter_eq_self.mpr (fun y _ => by simp)

/-- C8 counterexample: a description of a leading space and ten characters
has untrimmed length 11, so the daily summary collects it as a key
accomplishment although its trimmed length is only 10 — the threshold is
applied to the untrimmed description, contradicting the claim. -/
theorem keyAccomplishments_trim_cex :
    (computeDailySummary "2024-01-01" ["09:00"]
      [⟨"a", "u1", "2024-01-01", "09:00", " 0123456789", false, 0, 0⟩]
      1).keyAccomplishments = [" 0123456789"] ∧
    jsLength (jsTrim " 0123456789") = 10 ∧ ¬ 10 < jsLength (jsTrim " 0123456789") := by
  refine ⟨?_, by decide, by decide⟩
  decide

/-- C8 amended: key accomplishments are exactly the descriptions of entries
with a non-empty trimmed description (and, monthly, a false holiday flag)
whose UNtrimmed length exceeds the threshold (10 daily, 15 monthly),
de-duplicated keeping first insertion, capped at 5 daily and 10 monthly. -/
theorem keyAccomplishments_spec :
    (∀ (date : String) (slots : List String) (logs : List WorkLog) (dh : ℚ),
      logs.any (·.isHoliday) = false →
      (computeDailySummary date slots logs dh).keyAccomplishments =
        (dedupFirst ((logs.filter (fun l =>
          !(jsTrim l.workDescription == "") &&
            decide (10 < jsLength l.workDescription))).map
              (fun l => l.workDescription))).take 5) ∧
    (∀ (y m : ℤ) (slots : List String) (logs : List WorkLog) (d : Nat),
      (computeEnhancedMonthlySummary y m slots logs d).keyAccomplishments =
        (dedupFirst ((logs.filter (fun l =>
          (!l.isHoliday && !(jsTrim l.workDescription == "")) &&
            decide (15 < jsLength l.workDescription))).map
              (fun l => l.workDescription))).take 10) := by
  constructor
  · intro date slots logs dh hhol
    have hfun : (fun (acc : List String) (l : WorkLog) =>
        if !(jsTrim l.workDescription == "") then
          if 10 < jsLength l.workDescription then addToSet acc l.workDescription else acc
        else acc) =
        (fun acc l =>
          if !(jsTrim l.workDescription == "") && decide (10 < jsLength l.workDescription) then
            addToSet acc l.workDescription
          else acc) := by
      funext acc l
      by_cases h2 : 10 < jsLength l.workDescription
      · cases h1 : !(jsTrim l.workDescription == "") <;> simp [h1, h2]
      · cases h1 : !(jsTrim l.workDescription == "") <;> simp [h1, h2]
    rw [computeDailySummary, if_neg (by rw [hhol]; exact Bool.false_ne_true)]
    show (logs.foldl _ []).take 5 = _
    rw [hfun, foldl_guarded_addToSet, foldl_addToSet, filter_not_mem_nil, List.nil_append]
  · intro y m slots logs d
    have hfun : (fun (acc : List String) (l : WorkLog) =>
        if !l.isHoliday && !(jsTrim l.workDescription == "") then
          if 15 < jsLength l.workDescription then addToSet acc l.workDescription else acc
        else acc) =
        (fun acc l =>
          if (!l.isHoliday && !(jsTrim l.workDescription == "")) &&
              decide (15 < jsLength l.workDescription) then
            addToSet acc l.workDescription
          else acc) := by
      funext acc l
      by_cases h2 : 15 < jsLength l.workDescription
      · cases h1 : !l.isHoliday && !(jsTrim l.workDescription == "") <;> simp [h1, h2]
      · cases h1 : !l.isHoliday && !(jsTrim l.workDescription == "") <;> simp [h1, h2]
    show (logs.foldl _ []).take 10 = _
    rw [hfun, foldl_guarded_addToSet, foldl_addToSet, filter_not_mem_nil, List.nil_append]

/-- C8 witness: the amended daily rule applied to two entries, one long
enough to qualify and one that is not. -/
theorem keyAccomplishments_spec_witness :
    (computeDailySummary "2024-01-02" ["09:00", "10:00"]
      [⟨"a", "u1", "2024-01-02", "09:00", "built the new dashboard ui", false, 0, 0⟩,
       ⟨"b", "u1", "2024-01-02", "10:00", "sick", false, 0, 0⟩] 1).keyAccomplishments =
      (dedupFirst (([⟨"a", "u1", "2024-01-02", "09:00", "built the new dashboard ui",
          false, 0, 0⟩,
        ⟨"b", "u1", "2024-01-02", "10:00", "sick", false, 0, 0⟩] : List WorkLog).filter
          (fun l => !(jsTrim l.workDescription == "") &&
            decide (10 < jsLength l.workDescription)) |>.map
              (fun l => l.workDescription))).take 5 :=
  keyAccomplishments_spec.1 "2024-01-02" ["09:00", "10:00"] _ 1 (by decide)

/-! ## Grouping lemmas for the monthly statistics -/

theorem mem_dedupFirst : ∀ (xs : List String) (y : String), y ∈ dedupFirst xs ↔ y ∈ xs := by
  intro xs
  induction xs using dedupFirst.induct with
  | case1 => intro y; rw [dedupFirst]
  | case2 x t ih =>
    intro y
    rw [dedupFirst]
    by_cases hyx : y = x
    · subst hyx
      simp
    · simp only [List.mem_cons, ih, List.mem_filter]
      constructor
      · rintro (rfl | ⟨hy, _⟩)
        · exact Or.inl rfl
        · exact Or.inr hy
      · rintro (rfl | hy)
        · exact Or.inl rfl
        · exact Or.inr ⟨hy, by simp [string_beq_eq_decide, hyx]⟩

theorem dedupFirst_nodup : ∀ xs : List String, (dedupFirst xs).Nodup := by
  intro xs
  induction xs using dedupFirst.induct with
  | case1 => rw [dedupFirst]; exact List.nodup_nil
  | case2 x t ih =>
    rw [dedupFirst]
    refine List.nodup_cons.mpr ⟨?_, ih⟩
    intro hx
    rcases List.mem_filter.mp ((mem_dedupFirst _ x).mp hx) with ⟨_, hne⟩
    simp [string_beq_eq_decide] at hne

theorem toFinset_dedupFirst (xs : List String) : (dedupFirst xs).toFinset = xs.toFinset := by
  apply Finset.ext
  intro y
  simp [List.mem_toFinset, mem_dedupFirst]

theorem dedupFirst_length (xs : List String) : (dedupFirst xs).length = xs.toFinset.card := by
  rw [← List.toFinset_card_of_nodup (dedupFirst_nodup xs), toFinset_dedupFirst]

theorem keys_addToGroup (m : List (String × List WorkLog)) (l : WorkLog) :
    (addToGroup m l).map Prod.fst = addToSet (m.map Prod.fst) l.date := by
  induction m with
  | nil => simp [addToGroup, addToSet]
  | cons g rest ih =>
    rcases g with ⟨k, ls⟩
    rw [addToGroup]
    by_cases hk : k = l.date
    · rw [if_pos hk, addToSet, if_pos (by simp [List.mem_cons, hk.symm])]
      rfl
    · rw [if_neg hk, List.map_cons, ih, addToSet, addToSet]
      by_cases hmem : l.date ∈ rest.map Prod.fst
      · rw [if_pos hmem, if_pos (by simp [List.mem_cons, hmem])]
        rfl
      · rw [if_neg hmem, if_neg (by
          simp only [List.map_cons, List.mem_cons]
          rintro (hc | hc)
          · exact hk hc.symm
          · exact hmem hc)]
        rfl

theorem keys_foldl_addToGroup : ∀ (logs : List WorkLog) (m : List (String × List WorkLog)),
    (logs.foldl addToGroup m).map Prod.fst =
      (logs.map (fun l => l.date)).foldl addToSet (m.map Prod.fst) := by
  intro logs
  induction logs with
  | nil => intro m; rfl
  | cons l t ih =>
    intro m
    rw [List.foldl_cons, List.map_cons, List.foldl_cons, ih, keys_addToGroup]

theorem keys_groupByDate (logs : List WorkLog) :
    (groupByDate logs).map Prod.fst = dedupFirst (logs.map (fun l => l.date)) := by
  rw [groupByDate, keys_foldl_addToGroup]
  show (logs.map (fun l => l.date)).foldl addToSet [] = _
  rw [foldl_addToSet, filter_not_mem_nil, List.nil_append]

theorem keys_groupByDate_nodup (logs : List WorkLog) :
    ((groupByDate logs).map Prod.fst).Nodup := by
  rw [keys_groupByDate]
  exact dedupFirst_nodup _

/-- Association lookup in the grouped map (the body of `logsByDate.get(k)`). -/
def findGroup : List (String × List WorkLog) → String → List WorkLog
  | [], _ => []
  | (k2, ls) :: rest, k => if k2 = k then ls else findGroup rest k

theorem findGroup_addToGroup (m : List (String × List WorkLog)) (l : WorkLog) (k : String) :
    findGroup (addToGroup m l) k = findGroup m k ++ (if l.date = k then [l] else []) := by
  induction m with
  | nil =>
    rw [addToGroup, findGroup, findGroup]
    by_cases hk : l.date = k
    · rw [if_pos hk, if_pos hk]
      rfl
    · rw [if_neg hk, if_neg hk]
      rfl
  | cons g rest ih =>
    rcases g with ⟨k2, ls⟩
    rw [addToGroup]
    by_cases h2 : k2 = l.date
    · rw [if_pos h2, findGroup, findGroup]
      by_cases hk : k2 = k
      · rw [if_pos hk, if_pos hk, if_pos (h2 ▸ hk)]
      · rw [if_neg hk, if_neg hk, if_neg (fun hc => hk (h2.trans hc)), List.append_nil]
    · rw [if_neg h2, findGroup, findGroup]
      by_cases hk : k2 = k
      · rw [if_pos hk, if_pos hk, if_neg (fun hc => h2 (hk.trans hc.symm)), List.append_nil]
      · rw [if_neg hk, if_neg hk, ih]

theorem findGroup_foldl : ∀ (logs : List WorkLog) (m : List (String × List WorkLog)) (k : String),
    findGroup (logs.foldl addToGroup m) k =
      findGroup m k ++ logs.filter (fun l => l.date == k) := by
  intro logs
  induction logs with
  | nil => intro m k; simp
  | cons l t ih =>
    intro m k
    rw [List.foldl_cons, ih, findGroup_addToGroup, List.append_assoc, List.filter_cons]
    by_cases hk : l.date = k
    · rw [if_pos hk, if_pos (by simp [string_beq_eq_decide, hk])]
      rfl
    · rw [if_neg hk, if_neg (by simp [string_beq_eq_decide, hk]), List.nil_append]

theorem findGroup_groupByDate (logs : List WorkLog) (k : String) :
    findGroup (groupByDate logs) k = logs.filter (fun l => l.date == k) := by
  rw [groupByDate, findGroup_foldl]
  rfl

theorem findGroup_of_mem : ∀ (m : List (String × List WorkLog)),
    (m.map Prod.fst).Nodup → ∀ g ∈ m, findGroup m g.1 = g.2 := by
  intro m
  induction m with
  | nil => intro _ g hg; exact absurd hg (List.not_mem_nil g)
  | cons g0 rest ih =>
    rcases g0 with ⟨k2, ls⟩
    intro hnd g hg
    rcases List.nodup_cons.mp hnd with ⟨hk2, hrest⟩
    rcases List.mem_cons.mp hg with rfl | hgr
    · rw [findGroup, if_pos rfl]
    · rw [findGroup]
      by_cases hk : k2 = g.1
      · have hmem := List.mem_map_of_mem Prod.fst hgr
        rw [← hk] at hmem
        exact absurd hmem hk2
      · rw [if_neg hk]
        exact ih hrest g hgr

theorem mem_groupByDate (logs : List WorkLog) (g : String × List WorkLog)
    (hg : g ∈ groupByDate logs) : g.2 = logs.filter (fun l => l.date == g.1) := by
  rw [← findGroup_groupByDate]
  exact (findGroup_of_mem (groupByDate logs) (keys_groupByDate_nodup logs) g hg).symm

theorem map_fst_filter_of_congr (q : String → Bool) :
    ∀ (groups : List (String × List WorkLog)) (p : String × List WorkLog → Bool),
      (∀ g ∈ groups, p g = q g.1) →
      (groups.filter p).map Prod.fst = (groups.map Prod.fst).filter q := by
  intro groups
  induction groups with
  | nil => intro p _; rfl
  | cons g rest ih =>
    intro p hpq
    rw [List.filter_cons, List.map_cons, List.filter_cons]
    have hg : p g = q g.1 := hpq g (List.mem_cons_self g rest)
    cases hq : q g.1 with
    | true =>
      rw [hg, hq, if_pos rfl, if_pos rfl, List.map_cons,
        ih p (fun x hx => hpq x (List.mem_cons_of_mem g hx))]
    | false =>
      rw [hg, hq, if_neg (by simp), if_neg (by simp),
        ih p (fun x hx => hpq x (List.mem_cons_of_mem g hx))]

theorem groupByDate_length (logs : List WorkLog) :
    (groupByDate logs).length = (logs.map (fun l => l.date)).toFinset.card := by
  rw [← dedupFirst_length, ← keys_groupByDate, List.length_map]

theorem groupByDate_holiday_count (logs : List WorkLog) :
    ((groupByDate logs).filter (fun g => g.2.any (fun l => l.isHoliday))).length =
      ((logs.filter (fun l => l.isHoliday)).map (fun l => l.date)).toFinset.card := by
  have hcong : ∀ g ∈ groupByDate logs,
      (fun g : String × List WorkLog => g.2.any (fun l => l.isHoliday)) g =
        (fun k => (logs.filter (fun l => l.date == k)).any (fun l => l.isHoliday)) g.1 := by
    intro g hg
    show g.2.any (fun l => l.isHoliday) = _
    rw [mem_groupByDate logs g hg]
  have hmapf := map_fst_filter_of_congr
    (fun k => (logs.filter (fun l => l.date == k)).any (fun l => l.isHoliday))
    (groupByDate logs) _ hcong
  have hlen : ((groupByDate logs).filter (fun g => g.2.any (fun l => l.isHoliday))).length =
      (((groupByDate logs).map Prod.fst).filter
        (fun k => (logs.filter (fun l => l.date == k)).any (fun l => l.isHoliday))).length := by
    rw [← hmapf, List.length_map]
  rw [hlen, keys_groupByDate]
  have hnodup : ((dedupFirst (logs.map (fun l => l.date))).filter
      (fun k => (logs.filter (fun l => l.date == k)).any (fun l => l.isHoliday))).Nodup :=
    (dedupFirst_nodup _).filter _
  rw [← List.toFinset_card_of_nodup hnodup]
  congr 1
  apply Finset.ext
  intro k
  simp only [List.mem_toFinset, List.mem_filter, mem_dedupFirst, List.mem_map,
    List.any_eq_true, beq_iff_eq]
  constructor
  · rintro ⟨⟨l, hl, rfl⟩, l2, ⟨hl2, hk2⟩, hhol2⟩
    exact ⟨l2, ⟨hl2, hhol2⟩, hk2⟩
  · rintro ⟨l, ⟨hl, hhol⟩, rfl⟩
    exact ⟨⟨l, hl, rfl⟩, l, ⟨hl, rfl⟩, hhol⟩

/-- C5: for a month's entries, `totalDays` is the number of distinct dates
with any entry, `holidayDays` the number of distinct dates with a
holiday-flagged entry, `workingDays` their difference,
`totalProductiveHours` the count of non-holiday entries with non-empty
trimmed description times `slotDurationMinutes / 60`, and
`averageHoursPerDay` that total divided by `workingDays` rounded to one
decimal place when `workingDays > 0`, else `0`. -/
theorem enhancedMonthly_stats (y m : ℤ) (slots : List String) (logs : List WorkLog) (d : Nat) :
    (computeEnhancedMonthlySummary y m slots logs d).totalDays =
      (logs.map (fun l => l.date)).toFinset.card ∧
    (computeEnhancedMonthlySummary y m slots logs d).holidayDays =
      ((logs.filter (fun l => l.isHoliday)).map (fun l => l.date)).toFinset.card ∧
    (computeEnhancedMonthlySummary y m slots logs d).workingDays =
      ((computeEnhancedMonthlySummary y m slots logs d).totalDays : ℤ) -
        ((computeEnhancedMonthlySummary y m slots logs d).holidayDays : ℤ) ∧
    (computeEnhancedMonthlySummary y m slots logs d).totalProductiveHours =
      ((logs.filter (fun l =>
        !l.isHoliday && !(jsTrim l.workDescription == ""))).length : ℚ) * ((d : ℚ) / 60) ∧
    (computeEnhancedMonthlySummary y m slots logs d).averageHoursPerDay =
      (if 0 < (computeEnhancedMonthlySummary y m slots logs d).workingDays then
        ((jsRound ((computeEnhancedMonthlySummary y m slots logs d).totalProductiveHours /
          ((computeEnhancedMonthlySummary y m slots logs d).workingDays : ℚ) * 10)) : ℚ) / 10
      else 0) :=
  ⟨groupByDate_length logs, groupByDate_holiday_count logs, rfl, rfl, rfl⟩

theorem insertSorted_perm {α : Type} (le : α → α → Bool) (x : α) (l : List α) :
    (insertSorted le x l).Perm (x :: l) := by
  induction l with
  | nil => exact List.Perm.refl _
  | cons y ys ih =>
    rw [insertSorted]
    by_cases h : le y x = true
    · rw [if_pos h]
      exact (ih.cons y).trans (List.Perm.swap x y ys)
    · rw [if_neg h]

theorem stableSort_perm {α : Type} (le : α → α → Bool) (l : List α) :
    (stableSort le l).Perm l := by
  induction l with
  | nil => exact List.Perm.refl _
  | cons x xs ih => exact (insertSorted_perm le x (stableSort le xs)).trans (ih.cons x)

theorem mem_stableSort {α : Type} (le : α → α → Bool) (l : List α) (x : α) :
    x ∈ stableSort le l ↔ x ∈ l :=
  (stableSort_perm le l).mem_iff

theorem mem_dailySummaries (y m : ℤ) (slots : List String) (logs : List WorkLog) (d : Nat)
    (e : DailySummaryOut) :
    e ∈ (computeEnhancedMonthlySummary y m slots logs d).dailySummaries ↔
      ∃ g ∈ groupByDate logs, e = rollupOut slots (dayRollup slots ((d : ℚ) / 60) g) := by
  show e ∈ (stableSort (fun a b => jsStringLeb a.date b.date)
      ((groupByDate logs).map (dayRollup slots ((d : ℚ) / 60)))).map (rollupOut slots) ↔ _
  rw [List.mem_map]
  constructor
  · rintro ⟨day, hday, rfl⟩
    rcases List.mem_map.mp ((mem_stableSort _ _ day).mp hday) with ⟨g, hg, rfl⟩
    exact ⟨g, hg, rfl⟩
  · rintro ⟨g, hg, rfl⟩
    exact ⟨dayRollup slots ((d : ℚ) / 60) g, (mem_stableSort _ _ _).mpr
      (List.mem_map_of_mem _ hg), rfl⟩

/-- C10: in the enhanced monthly summary each emitted per-day rollup has
`isHoliday` true exactly when its `totalHours` is `0` and its
`completionPercentage` is the number `0`; consequently a date all of whose
entries are non-holiday with whitespace-only descriptions is reported as a
holiday (given the always non-empty configured slot list). -/
theorem enhancedMonthly_rollup_holiday :
    (∀ (y m : ℤ) (slots : List String) (logs : List WorkLog) (d : Nat),
      ∀ e ∈ (computeEnhancedMonthlySummary y m slots logs d).dailySummaries,
        (e.isHoliday = true ↔
          (e.completionPercentage = some 0 ∧ e.totalHours = 0))) ∧
    (∀ (y m : ℤ) (slots : List String) (logs : List WorkLog) (d : Nat) (date : String),
      0 < slots.length →
      (∀ l ∈ logs, l.date = date → l.isHoliday = false ∧ jsTrim l.workDescription = "") →
      ∀ e ∈ (computeEnhancedMonthlySummary y m slots logs d).dailySummaries,
        e.date = date → e.isHoliday = true) := by
  constructor
  · intro y m slots logs d e he
    rcases (mem_dailySummaries y m slots logs d e).mp he with ⟨g, _, rfl⟩
    show (decide _ && decide _) = true ↔ _
    rw [Bool.and_eq_true, decide_eq_true_eq, decide_eq_true_eq]
    exact Iff.rfl
  · intro y m slots logs d date hlen hall e he hdate
    rcases (mem_dailySummaries y m slots logs d e).mp he with ⟨g, hg, rfl⟩
    have hgdate : g.1 = date := hdate
    have hsnd := mem_groupByDate logs g hg
    have hmem : ∀ l ∈ g.2, l.isHoliday = false ∧ jsTrim l.workDescription = "" := by
      intro l hl
      rw [hsnd] at hl
      rcases List.mem_filter.mp hl with ⟨hlin, hld⟩
      exact hall l hlin (hgdate ▸ beq_iff_eq.mp hld)
    have hnoHol : g.2.any (·.isHoliday) = false := by
      rw [List.any_eq_false]
      intro l hl
      rw [(hmem l hl).1]
      exact Bool.false_ne_true
    have hcomp : (g.2.filter (fun l =>
        !l.isHoliday && !(jsTrim l.workDescription == ""))).length = 0 := by
      rw [List.length_eq_zero, List.filter_eq_nil_iff]
      intro l hl
      rw [(hmem l hl).2]
      simp
    show (decide _ && decide _) = true
    rw [Bool.and_eq_true, decide_eq_true_eq, decide_eq_true_eq]
    have hslots : ((slots.length : ℚ)) ≠ 0 := by
      exact_mod_cast Nat.pos_iff_ne_zero.mp hlen
    constructor
    · show (dayRollup slots ((d : ℚ) / 60) g).completionPercentage = some 0
      rw [dayRollup]
      simp only [hnoHol, Bool.false_eq_true, if_false, hcomp, jsDiv, if_neg hslots,
        Nat.cast_zero, zero_div]
      rw [Option.map_some']
      congr 1
      rw [zero_mul, jsRound_eq_floor, zero_add]
      norm_num
    · show (dayRollup slots ((d : ℚ) / 60) g).hours = 0
      rw [dayRollup]
      simp only [hnoHol, Bool.false_eq_true, if_false, hcomp, Nat.cast_zero]
      exact zero_mul _

/-- C10 witness: a date whose single entry is non-holiday with an empty
description is rolled up with `isHoliday = true`. -/
theorem enhancedMonthly_rollup_holiday_witness :
    ((computeEnhancedMonthlySummary 2024 1 ["09:00"]
      [⟨"a", "u1", "2024-01-05", "09:00", "", false, 0, 0⟩] 60).dailySummaries.map
        (fun e => e.isHoliday)) = [true] := by
  have hds : (computeEnhancedMonthlySummary 2024 1 ["09:00"]
      [⟨"a", "u1", "2024-01-05", "09:00", "", false, 0, 0⟩] 60).dailySummaries =
      [rollupOut ["09:00"] (dayRollup ["09:00"] (((60 : ℕ) : ℚ) / 60)
        ("2024-01-05", [⟨"a", "u1", "2024-01-05", "09:00", "", false, 0, 0⟩]))] := rfl
  rw [hds, List.map_cons, List.map_nil]
  have hhol := enhancedMonthly_rollup_holiday.2 2024 1 ["09:00"]
    [⟨"a", "u1", "2024-01-05", "09:00", "", false, 0, 0⟩] 60 "2024-01-05" (by decide)
    (by
      intro l hl
      rw [List.mem_singleton.mp hl]
      exact fun _ => ⟨rfl, by decide⟩)
    (rollupOut ["09:00"] (dayRollup ["09:00"] (((60 : ℕ) : ℚ) / 60)
      ("2024-01-05", [⟨"a", "u1", "2024-01-05", "09:00", "", false, 0, 0⟩])))
    (by rw [hds]; exact List.mem_singleton.mpr rfl) rfl
  rw [hhol]

/-! ## Frame lemmas for the storage operations -/

theorem find?_eq_head_filter {α : Type} (p : α → Bool) :
    ∀ l : List α, l.find? p = (l.filter p).head? := by
  intro l
  induction l with
  | nil => rfl
  | cons a t ih =>
    cases h : p a with
    | true =>
      rw [List.find?_cons_of_pos _ h, List.filter_cons_of_pos h]
      rfl
    | false =>
      rw [List.find?_cons_of_neg _ (by simp [h]), List.filter_cons_of_neg (by simp [h])]
      exact ih

theorem getWorkLog_eq_head_filter (st : List WorkLog) (u d t : String) :
    getWorkLog st u d t = (st.filter (fun l => decide (wlKey l = (u, d, t)))).head? :=
  find?_eq_head_filter _ st

theorem wlKey_applyUpdate (l : WorkLog) (upd : UpdateWorkLog) (now : Nat) :
    wlKey (applyUpdate l upd now) = wlKey l := rfl

theorem keys_updateWorkLog (st : List WorkLog) (u d t : String) (upd : UpdateWorkLog)
    (now : Nat) : (updateWorkLog st u d t upd now).map wlKey = st.map wlKey := by
  rw [updateWorkLog, List.map_map]
  apply List.map_congr_left
  intro l _
  show wlKey (if wlKey l = (u, d, t) then applyUpdate l upd now else l) = wlKey l
  by_cases h : wlKey l = (u, d, t)
  · rw [if_pos h, wlKey_applyUpdate]
  · rw [if_neg h]

theorem filter_key_updateWorkLog_ne (st : List WorkLog) (u d t : String) (upd : UpdateWorkLog)
    (now : Nat) (k : String × String × String) (hk : k ≠ (u, d, t)) :
    (updateWorkLog st u d t upd now).filter (fun l => decide (wlKey l = k)) =
      st.filter (fun l => decide (wlKey l = k)) := by
  induction st with
  | nil => rfl
  | cons a r ih =>
    show ((if wlKey a = (u, d, t) then applyUpdate a upd now else a) ::
      updateWorkLog r u d t upd now).filter _ = _
    by_cases ha : wlKey a = (u, d, t)
    · rw [if_pos ha, List.filter_cons, List.filter_cons]
      have h1 : ¬ wlKey (applyUpdate a upd now) = k := by
        rw [wlKey_applyUpdate, ha]
        exact fun hc => hk hc.symm
      have h2 : ¬ wlKey a = k := by
        rw [ha]
        exact fun hc => hk hc.symm
      simp only [decide_eq_false h1, decide_eq_false h2, Bool.false_eq_true, if_false]
      exact ih
    · rw [if_neg ha, List.filter_cons, List.filter_cons]
      cases hak : decide (wlKey a = k) with
      | true => simp only [if_true, ih]
      | false => simp only [Bool.false_eq_true, if_false, ih]

theorem filter_key_updateWorkLog_eq (st : List WorkLog) (u d t : String) (upd : UpdateWorkLog)
    (now : Nat) :
    (updateWorkLog st u d t upd now).filter (fun l => decide (wlKey l = (u, d, t))) =
      (st.filter (fun l => decide (wlKey l = (u, d, t)))).map
        (fun l => applyUpdate l upd now) := by
  induction st with
  | nil => rfl
  | cons a r ih =>
    show ((if wlKey a = (u, d, t) then applyUpdate a upd now else a) ::
      updateWorkLog r u d t upd now).filter _ = _
    by_cases ha : wlKey a = (u, d, t)
    · rw [if_pos ha, List.filter_cons, List.filter_cons]
      have h1 : decide (wlKey (applyUpdate a upd now) = (u, d, t)) = true := by
        rw [wlKey_applyUpdate]
        exact decide_eq_true ha
      simp only [h1, decide_eq_true ha, if_true, List.map_cons, ih]
    · rw [if_neg ha, List.filter_cons, List.filter_cons]
      simp only [decide_eq_false ha, Bool.false_eq_true, if_false, ih]

theorem filter_key_nil_of_getWorkLog_none (st : List WorkLog) (u d t : String)
    (h : getWorkLog st u d t = none) :
    st.filter (fun l => decide (wlKey l = (u, d, t))) = [] := by
  rw [getWorkLog_eq_head_filter] at h
  exact List.head?_eq_none_iff.mp h

theorem not_mem_keys_of_getWorkLog_none (st : List WorkLog) (u d t : String)
    (h : getWorkLog st u d t = none) : (u, d, t) ∉ st.map wlKey := by
  intro hmem
  rcases List.mem_map.mp hmem with ⟨l, hl, hkey⟩
  have : l ∈ st.filter (fun l => decide (wlKey l = (u, d, t))) :=
    List.mem_filter.mpr ⟨hl, decide_eq_true hkey⟩
  rw [filter_key_nil_of_getWorkLog_none st u d t h] at this
  exact absurd this (List.not_mem_nil l)

theorem filter_key_singleton_of_some (st : List WorkLog) (hn : (st.map wlKey).Nodup)
    (u d t : String) (e : WorkLog) (h : getWorkLog st u d t = some e) :
    st.filter (fun l => decide (wlKey l = (u, d, t))) = [e] := by
  rw [getWorkLog_eq_head_filter] at h
  rcases hF : st.filter (fun l => decide (wlKey l = (u, d, t))) with _ | ⟨x, _ | ⟨a, F2⟩⟩
  · rw [hF] at h
    exact absurd h (by simp)
  · rw [hF] at h
    have hxe : x = e := by simpa using h
    rw [hxe]
  · exfalso
    have hx : x ∈ st.filter (fun l => decide (wlKey l = (u, d, t))) := by
      rw [hF]
      exact List.mem_cons_self _ _
    have ha : a ∈ st.filter (fun l => decide (wlKey l = (u, d, t))) := by
      rw [hF]
      exact List.mem_cons_of_mem _ (List.mem_cons_self _ _)
    have hkx : wlKey x = (u, d, t) :=
      of_decide_eq_true (List.mem_filter.mp hx).2
    have hka : wlKey a = (u, d, t) :=
      of_decide_eq_true (List.mem_filter.mp ha).2
    have hmapsub : ((st.filter (fun l => decide (wlKey l = (u, d, t)))).map wlKey).Sublist
        (st.map wlKey) := (List.filter_sublist st).map wlKey
    have hnodupF := List.Nodup.sublist hmapsub hn
    rw [hF] at hnodupF
    simp only [List.map_cons, List.nodup_cons] at hnodupF
    exact hnodupF.1 (by rw [hkx, ← hka]; exact List.mem_cons_self _ _)

/-- One iteration of the holiday-upsert loop. -/
def holidayUpsertStep (u date : String) (flag : Bool) (newId : String → String) (now : Nat)
    (st : List WorkLog) (timeSlot : String) : List WorkLog :=
  match getWorkLog st u date timeSlot with
  | some _ => updateWorkLog st u date timeSlot ⟨none, some flag⟩ now
  | none => createWorkLog st ⟨newId timeSlot, u, date, timeSlot, "", flag, now, now⟩

theorem setDayHoliday_eq_foldl (st : List WorkLog) (u date : String) (flag : Bool)
    (slots : List String) (newId : String → String) (now : Nat) :
    setDayHoliday st u date flag slots newId now =
      slots.foldl (holidayUpsertStep u date flag newId now) st := rfl

/-- The row the upsert leaves behind for a slot: the pre-existing row with
only `isHoliday` and `updatedAt` replaced, or a fresh row with an empty
description. -/
def expectedEntry (st : List WorkLog) (u date : String) (flag : Bool)
    (newId : String → String) (now : Nat) (timeSlot : String) : WorkLog :=
  match getWorkLog st u date timeSlot with
  | some e => applyUpdate e ⟨none, some flag⟩ now
  | none => ⟨newId timeSlot, u, date, timeSlot, "", flag, now, now⟩

theorem step_keys_nodup (u date : String) (flag : Bool) (newId : String → String) (now : Nat)
    (st : List WorkLog) (s : String) (hn : (st.map wlKey).Nodup) :
    ((holidayUpsertStep u date flag newId now st s).map wlKey).Nodup := by
  rw [holidayUpsertStep]
  cases hg : getWorkLog st u date s with
  | some e => rw [keys_updateWorkLog]; exact hn
  | none =>
    rw [createWorkLog, List.map_append]
    rw [List.nodup_append]
    exact ⟨hn, List.nodup_singleton _,
      fun k hk hk2 => by
        rw [List.mem_singleton.mp hk2] at hk
        exact not_mem_keys_of_getWorkLog_none st u date s hg hk⟩

theorem step_filter_at (u date : String) (flag : Bool) (newId : String → String) (now : Nat)
    (st : List WorkLog) (s : String) (hn : (st.map wlKey).Nodup) :
    (holidayUpsertStep u date flag newId now st s).filter
      (fun l => decide (wlKey l = (u, date, s))) =
      [expectedEntry st u date flag newId now s] := by
  rw [holidayUpsertStep, expectedEntry]
  cases hg : getWorkLog st u date s with
  | some e =>
    rw [filter_key_updateWorkLog_eq, filter_key_singleton_of_some st hn u date s e hg]
    rfl
  | none =>
    rw [createWorkLog, List.filter_append, filter_key_nil_of_getWorkLog_none st u date s hg,
      List.nil_append, List.filter_cons]
    rw [if_pos (by exact decide_eq_true rfl)]
    rfl

theorem step_filter_ne (u date : String) (flag : Bool) (newId : String → String) (now : Nat)
    (st : List WorkLog) (s : String) (k : String × String × String) (hk : k ≠ (u, date, s)) :
    (holidayUpsertStep u date flag newId now st s).filter (fun l => decide (wlKey l = k)) =
      st.filter (fun l => decide (wlKey l = k)) := by
  rw [holidayUpsertStep]
  cases hg : getWorkLog st u date s with
  | some e => exact filter_key_updateWorkLog_ne st u date s _ now k hk
  | none =>
    rw [createWorkLog, List.filter_append, List.filter_cons]
    rw [if_neg (by
      intro hc
      have : wlKey (⟨newId s, u, date, s, "", flag, now, now⟩ : WorkLog) = k :=
        of_decide_eq_true hc
      exact hk (this ▸ rfl))]
    rw [List.filter_nil, List.append_nil]

theorem step_getWorkLog_ne (u date : String) (flag : Bool) (newId : String → String)
    (now : Nat) (st : List WorkLog) (s : String) (u2 d2 t2 : String)
    (hk : (u2, d2, t2) ≠ (u, date, s)) :
    getWorkLog (holidayUpsertStep u date flag newId now st s) u2 d2 t2 =
      getWorkLog st u2 d2 t2 := by
  rw [getWorkLog_eq_head_filter, getWorkLog_eq_head_filter,
    step_filter_ne u date flag newId now st s (u2, d2, t2) hk]

theorem applyUpdate_expected (st : List WorkLog) (u date : String) (flag : Bool)
    (newId : String → String) (now : Nat) (s : String) :
    applyUpdate (expectedEntry st u date flag newId now s) ⟨none, some flag⟩ now =
      expectedEntry st u date flag newId now s := by
  rw [expectedEntry]
  cases getWorkLog st u date s with
  | some e => rfl
  | none => rfl

theorem step_expected (u date : String) (flag : Bool) (newId : String → String) (now : Nat)
    (st : List WorkLog) (s s2 : String) (hn : (st.map wlKey).Nodup) :
    expectedEntry (holidayUpsertStep u date flag newId now st s) u date flag newId now s2 =
      expectedEntry st u date flag newId now s2 := by
  by_cases hs : s2 = s
  · subst hs
    have hget : getWorkLog (holidayUpsertStep u date flag newId now st s2) u date s2 =
        some (expectedEntry st u date flag newId now s2) := by
      rw [getWorkLog_eq_head_filter, step_filter_at u date flag newId now st s2 hn]
      rfl
    conv_lhs => rw [expectedEntry]
    rw [hget]
    exact applyUpdate_expected st u date flag newId now s2
  · have hget := step_getWorkLog_ne u date flag newId now st s u date s2
      (by intro hc; exact hs (congrArg (fun p => p.2.2) hc))
    conv_lhs => rw [expectedEntry]
    rw [hget, expectedEntry]

/-- C9: the holiday upsert over the current slot list leaves, for every slot
in the list, exactly one row with key `(userId, date, slot)` — the
pre-existing row with only `isHoliday` and `updatedAt` replaced, or a fresh
row with empty description — with `isHoliday` equal to the flag; rows under
any other key (other user, other date, or a slot outside the list) are
untouched, and key uniqueness is preserved. -/
theorem setDayHoliday_spec (st : List WorkLog) (u date : String) (flag : Bool)
    (slots : List String) (newId : String → String) (now : Nat)
    (hn : (st.map wlKey).Nodup) :
    (((setDayHoliday st u date flag slots newId now).map wlKey).Nodup) ∧
    (∀ s ∈ slots,
      (setDayHoliday st u date flag slots newId now).filter
        (fun l => decide (wlKey l = (u, date, s))) =
        [expectedEntry st u date flag newId now s] ∧
      (expectedEntry st u date flag newId now s).isHoliday = flag ∧
      (∀ e, getWorkLog st u date s = some e →
        expectedEntry st u date flag newId now s =
          { e with isHoliday := flag, updatedAt := now }) ∧
      (getWorkLog st u date s = none →
        expectedEntry st u date flag newId now s =
          ⟨newId s, u, date, s, "", flag, now, now⟩)) ∧
    (∀ k : String × String × String, k.1 ≠ u ∨ k.2.1 ≠ date ∨ k.2.2 ∉ slots →
      (setDayHoliday st u date flag slots newId now).filter
        (fun l => decide (wlKey l = k)) =
        st.filter (fun l => decide (wlKey l = k))) := by
  rw [setDayHoliday_eq_foldl]
  induction slots generalizing st with
  | nil =>
    refine ⟨hn, fun s hs => absurd hs (List.not_mem_nil s), fun k _ => rfl⟩
  | cons s rest ih =>
    rw [List.foldl_cons]
    have hn1 := step_keys_nodup u date flag newId now st s hn
    rcases ih (holidayUpsertStep u date flag newId now st s) hn1 with ⟨ihN, ihAt, ihFr⟩
    refine ⟨ihN, ?_, ?_⟩
    · intro s2 hs2
      have hflag : (expectedEntry st u date flag newId now s2).isHoliday = flag := by
        rw [expectedEntry]
        cases getWorkLog st u date s2 with
        | some e => rfl
        | none => rfl
      have hupd : ∀ e, getWorkLog st u date s2 = some e →
          expectedEntry st u date flag newId now s2 =
            { e with isHoliday := flag, updatedAt := now } := by
        intro e he
        rw [expectedEntry, he]
        rfl
      have hnew : getWorkLog st u date s2 = none →
          expectedEntry st u date flag newId now s2 =
            ⟨newId s2, u, date, s2, "", flag, now, now⟩ := by
        intro he
        rw [expectedEntry, he]
      refine ⟨?_, hflag, hupd, hnew⟩
      by_cases hs2r : s2 ∈ rest
      · rw [(ihAt s2 hs2r).1, step_expected u date flag newId now st s s2 hn]
      · have hs2s : s2 = s := by
          rcases List.mem_cons.mp hs2 with h | h
          · exact h
          · exact absurd h hs2r
        subst hs2s
        rw [ihFr (u, date, s2) (Or.inr (Or.inr hs2r)),
          step_filter_at u date flag newId now st s2 hn]
    · intro k hk
      have hkrest : k.1 ≠ u ∨ k.2.1 ≠ date ∨ k.2.2 ∉ rest := by
        rcases hk with h | h | h
        · exact Or.inl h
        · exact Or.inr (Or.inl h)
        · exact Or.inr (Or.inr (fun hc => h (List.mem_cons_of_mem s hc)))
      have hkne : k ≠ (u, date, s) := by
        intro hc
        subst hc
        rcases hk with h | h | h
        · exact h rfl
        · exact h rfl
        · exact h (List.mem_cons_self _ _)
      rw [ihFr k hkrest, step_filter_ne u date flag newId now st s k hkne]

/-- A one-row store used to exercise the holiday-upsert theorem. -/
def sampleStore : List WorkLog :=
  [⟨"id0", "u1", "2024-01-01", "09:00", "wrote code", false, 1, 1⟩]

/-- C9 witness: the upsert theorem applied to a store with one pre-existing
row, flagging 09:00–10:00 of 2024-01-01 as holiday; the 09:00 row is
rewritten in place, and another user's key is untouched. -/
theorem setDayHoliday_spec_witness :
    (setDayHoliday sampleStore "u1" "2024-01-01" true ["09:00", "10:00"]
      (fun _ => "fresh") 5).filter
      (fun l => decide (wlKey l = ("u1", "2024-01-01", "09:00"))) =
      [expectedEntry sampleStore "u1" "2024-01-01" true (fun _ => "fresh") 5 "09:00"] ∧
    (expectedEntry sampleStore "u1" "2024-01-01" true (fun _ => "fresh") 5 "09:00").isHoliday =
      true ∧
    (setDayHoliday sampleStore "u1" "2024-01-01" true ["09:00", "10:00"]
      (fun _ => "fresh") 5).filter
      (fun l => decide (wlKey l = ("u2", "2024-01-01", "09:00"))) =
      sampleStore.filter (fun l => decide (wlKey l = ("u2", "2024-01-01", "09:00"))) :=
  have h := setDayHoliday_spec sampleStore "u1" "2024-01-01" true ["09:00", "10:00"]
    (fun _ => "fresh") 5 (by decide)
  ⟨(h.2.1 "09:00" (by decide)).1, (h.2.1 "09:00" (by decide)).2.1,
    h.2.2 ("u2", "2024-01-01", "09:00") (Or.inl (by decide))⟩

end WorkLogDash
